import Mathlib

/-
Verification of the Leo symbol-table fragment
(src/compiler/passes/src/common/symbol_table/function_symbol.rs) and the
dependency-removal command (src/leo/cli/commands/remove.rs).

The AST collaborator types (`Function`, `Input`, `Type`, `Variant`, `Span`)
live in external crates (leo_ast, leo_span); they are embedded here with the
fields the verified code reads.  The symbol-table operations themselves
(create_scope, insert_function, attach_finalize, lookup_function,
lookup_finalize, sealing, serialization) are declared by the specification but
their bodies are not part of the repository excerpt; those are modelled from
the spec, as marked on each definition.
-/

namespace Leo

/-- Calling-convention kind of a callable (leo_ast `Variant`):
transition, regular function, or inlined. -/
inductive Variant where
  | inline
  | standard
  | transition
deriving DecidableEq

/-- Source span (leo_span `Span`): a lo/hi byte-position pair, pure provenance. -/
structure Span where
  lo : Nat
  hi : Nat
deriving DecidableEq

/-- Parameter mode of an input descriptor (leo_ast `Mode`). -/
inductive Mode where
  | none
  | constant
  | priv
  | pub
deriving DecidableEq

/-- Type of a value (leo_ast `Type`); `Type` is a Lean keyword, hence `Ty`. -/
inductive Ty where
  | address
  | boolean
  | field
  | group
  | scalar
  | unit
  | identifier (name : String)
deriving DecidableEq

/-- An input parameter descriptor (leo_ast `Input`): positional mode/type
information plus provenance. -/
structure Input where
  mode : Mode
  ty : Ty
  span : Span
deriving DecidableEq

/-- An AST function declaration (leo_ast `Function`), restricted to the fields
the symbol table reads. -/
structure Function where
  identifier : String
  is_async : Bool
  variant : Variant
  input : List Input
  output_type : Ty
  span : Span
deriving DecidableEq

/-- Metadata associated with the finalize block (`FinalizeData` in
function_symbol.rs): the inputs and the output type of the finalize block. -/
structure FinalizeData where
  input : List Input
  output_type : Ty
deriving DecidableEq

/-- An entry for a function in the symbol table (`FunctionSymbol` in
function_symbol.rs): the scope index, asyncness, output type, variant,
span and inputs. -/
structure FunctionSymbol where
  id : Nat
  is_async : Bool
  output_type : Ty
  variant : Variant
  _span : Span
  input : List Input
deriving DecidableEq

/-- `SymbolTable::new_function_symbol` from function_symbol.rs: build a
`FunctionSymbol` from a scope index and a function declaration, copying each
field by value. -/
def new_function_symbol (id : Nat) (func : Function) : FunctionSymbol :=
  { id := id
    is_async := func.is_async
    output_type := func.output_type
    variant := func.variant
    _span := func.span
    input := func.input }

/-- Modelled from the spec: a Scope Node — named function entries local to one
level of the nesting tree, the finalize metadata keyed by the same names, a
non-owning parent link (absent for the root), and the Open/Sealed state flag. -/
structure Scope where
  parent : Option Nat
  functions : List (String × FunctionSymbol)
  finalizes : List (String × FinalizeData)
  sealed : Bool
deriving DecidableEq

/-- Modelled from the spec: the Symbol Table — an arena of Scope Nodes where a
`ScopeId` is the dense, never-reused index of the scope in the arena. -/
structure SymbolTable where
  scopes : List Scope
deriving DecidableEq

/-- Modelled from the spec: the construction-time error taxonomy. -/
inductive TableError where
  | DuplicateDeclaration
  | UnknownFunction
  | NotAsync
  | InvalidParentScope
  | ScopeSealed
deriving DecidableEq

/-- Modelled from the spec: `create_scope(parent)` allocates a new empty Scope
Node as a child of `parent` (or the root when `parent` is absent), returning a
fresh monotonically-increasing identifier; fails with `InvalidParentScope`
when `parent` does not denote an existing scope. -/
def create_scope (st : SymbolTable) (parent : Option Nat) :
    Except TableError (SymbolTable × Nat) :=
  match parent with
  | some p =>
      if p < st.scopes.length then
        .ok (⟨st.scopes ++ [⟨some p, [], [], false⟩]⟩, st.scopes.length)
      else
        .error .InvalidParentScope
  | none => .ok (⟨st.scopes ++ [⟨none, [], [], false⟩]⟩, st.scopes.length)

/-- Modelled from the spec: `insert_function(scope, name, symbol)` adds the
symbol under `name` in `scope`; fails with `ScopeSealed` on a Sealed scope and
with `DuplicateDeclaration` when `name` already exists in that exact scope. -/
def insert_function (st : SymbolTable) (scope : Nat) (name : String)
    (symbol : FunctionSymbol) : Except TableError SymbolTable :=
  match st.scopes[scope]? with
  | none => .error .InvalidParentScope
  | some sc =>
      if sc.sealed then .error .ScopeSealed
      else if (sc.functions.lookup name).isSome then .error .DuplicateDeclaration
      else .ok ⟨st.scopes.set scope
        { sc with functions := (name, symbol) :: sc.functions }⟩

/-- Modelled from the spec: `attach_finalize(scope, name, data)` associates
Finalize Metadata with an existing Function Symbol; fails with `ScopeSealed`
on a Sealed scope, with `UnknownFunction` when no symbol named `name` exists
directly in `scope`, and with `NotAsync` when that symbol is synchronous. -/
def attach_finalize (st : SymbolTable) (scope : Nat) (name : String)
    (data : FinalizeData) : Except TableError SymbolTable :=
  match st.scopes[scope]? with
  | none => .error .UnknownFunction
  | some sc =>
      if sc.sealed then .error .ScopeSealed
      else
        match sc.functions.lookup name with
        | none => .error .UnknownFunction
        | some sym =>
            if sym.is_async then
              .ok ⟨st.scopes.set scope
                { sc with finalizes := (name, data) :: sc.finalizes }⟩
            else .error .NotAsync

/-- Modelled from the spec: transition a scope from Open to Sealed; lookups
are unaffected and the scope remains queryable forever. -/
def seal_scope (st : SymbolTable) (scope : Nat) : SymbolTable :=
  match st.scopes[scope]? with
  | none => st
  | some sc => ⟨st.scopes.set scope { sc with sealed := true }⟩

/-- Fuel-indexed core of `lookup_function`: check the scope itself, then walk
the parent chain.  The fuel only guards against malformed parent links; a
table built by `create_scope` has every parent strictly below its child, so a
fuel of `st.scopes.length` is never exhausted. -/
def lookup_function_fuel (st : SymbolTable) :
    Nat → Nat → String → Option FunctionSymbol
  | 0, _, _ => none
  | fuel + 1, scope, name =>
      match st.scopes[scope]? with
      | none => none
      | some sc =>
          match sc.functions.lookup name with
          | some sym => some sym
          | none =>
              match sc.parent with
              | none => none
              | some p => lookup_function_fuel st fuel p name

/-- Modelled from the spec: `lookup_function(scope, name)` resolves `name`
starting at `scope`, then its parent, and so on up to the root, returning the
first match (innermost-scope-wins shadowing) and nothing when no scope in the
chain declares `name`. -/
def lookup_function (st : SymbolTable) (scope : Nat) (name : String) :
    Option FunctionSymbol :=
  lookup_function_fuel st st.scopes.length scope name

/-- Fuel-indexed core of `lookup_finalize`: same resolution order as
`lookup_function`, targeting the finalize companion of the resolved symbol. -/
def lookup_finalize_fuel (st : SymbolTable) :
    Nat → Nat → String → Option FinalizeData
  | 0, _, _ => none
  | fuel + 1, scope, name =>
      match st.scopes[scope]? with
      | none => none
      | some sc =>
          match sc.functions.lookup name with
          | some _ => sc.finalizes.lookup name
          | none =>
              match sc.parent with
              | none => none
              | some p => lookup_finalize_fuel st fuel p name

/-- Modelled from the spec: `lookup_finalize(scope, name)` — same resolution
order as `lookup_function`, but targets the finalize companion; absent when
the resolved Function Symbol has no attached metadata. -/
def lookup_finalize (st : SymbolTable) (scope : Nat) (name : String) :
    Option FinalizeData :=
  lookup_finalize_fuel st st.scopes.length scope name

/-- Fuel-indexed list of scope ids visited by a lookup from `scope`: the scope
itself followed by its ancestors. -/
def scope_chain_fuel (st : SymbolTable) : Nat → Nat → List Nat
  | 0, _ => []
  | fuel + 1, scope =>
      match st.scopes[scope]? with
      | none => []
      | some sc =>
          match sc.parent with
          | none => [scope]
          | some p => scope :: scope_chain_fuel st fuel p

/-- The chain of enclosing scopes a lookup from `scope` walks: `scope` first,
then each parent in order up to the root. -/
def scope_chain (st : SymbolTable) (scope : Nat) : List Nat :=
  scope_chain_fuel st st.scopes.length scope

/-- First function declaration for `name` along an explicit list of scope ids:
the reference resolution order against which `lookup_function` is checked. -/
def chain_lookup (st : SymbolTable) : List Nat → String → Option FunctionSymbol
  | [], _ => none
  | i :: rest, name =>
      match st.scopes[i]? with
      | none => none
      | some sc =>
          match sc.functions.lookup name with
          | some sym => some sym
          | none => chain_lookup st rest name

/-- A single builder-pass operation against the table. -/
inductive Op where
  | createScope (parent : Option Nat)
  | insertFunction (scope : Nat) (name : String) (symbol : FunctionSymbol)
  | attachFinalize (scope : Nat) (name : String) (data : FinalizeData)
  | sealScope (scope : Nat)

/-- Run one operation; `none` when the operation fails, so a successful run
models a valid builder sequence. -/
def runOp (st : SymbolTable) : Op → Option SymbolTable
  | .createScope p =>
      match create_scope st p with
      | .ok (st', _) => some st'
      | .error _ => none
  | .insertFunction s n sym => (insert_function st s n sym).toOption
  | .attachFinalize s n d => (attach_finalize st s n d).toOption
  | .sealScope s => some (seal_scope st s)

/-- Run a sequence of operations, failing as soon as one operation fails. -/
def runOps (st : SymbolTable) : List Op → Option SymbolTable
  | [] => some st
  | op :: ops =>
      match runOp st op with
      | none => none
      | some st' => runOps st' ops

/-- Modelled from the spec: a plain, order-preserving structured encoding
(the persistence format the table must round-trip through, field by field,
with no derived fields). -/
inductive Enc where
  | n (value : Nat)
  | b (value : Bool)
  | s (value : String)
  | arr (items : List Enc)

/-- Encode an optional parent link. -/
def encOptNat : Option Nat → Enc
  | Option.none => .arr []
  | some p => .arr [.n p]

/-- Decode an optional parent link. -/
def decOptNat : Enc → Option (Option Nat)
  | .arr [] => some Option.none
  | .arr [.n p] => some (some p)
  | _ => Option.none

/-- Encode a variant tag. -/
def encVariant : Variant → Enc
  | .inline => .n 0
  | .standard => .n 1
  | .transition => .n 2

/-- Decode a variant tag. -/
def decVariant : Enc → Option Variant
  | .n 0 => some .inline
  | .n 1 => some .standard
  | .n 2 => some .transition
  | _ => none

/-- Encode a span field by field. -/
def encSpan (sp : Span) : Enc := .arr [.n sp.lo, .n sp.hi]

/-- Decode a span. -/
def decSpan : Enc → Option Span
  | .arr [.n lo, .n hi] => some ⟨lo, hi⟩
  | _ => none

/-- Encode a parameter mode. -/
def encMode : Mode → Enc
  | .none => .n 0
  | .constant => .n 1
  | .priv => .n 2
  | .pub => .n 3

/-- Decode a parameter mode. -/
def decMode : Enc → Option Mode
  | .n 0 => some .none
  | .n 1 => some .constant
  | .n 2 => some .priv
  | .n 3 => some .pub
  | _ => none

/-- Encode a type. -/
def encTy : Ty → Enc
  | .address => .n 0
  | .boolean => .n 1
  | .field => .n 2
  | .group => .n 3
  | .scalar => .n 4
  | .unit => .n 5
  | .identifier name => .arr [.n 6, .s name]

/-- Decode a type. -/
def decTy : Enc → Option Ty
  | .n 0 => some .address
  | .n 1 => some .boolean
  | .n 2 => some .field
  | .n 3 => some .group
  | .n 4 => some .scalar
  | .n 5 => some .unit
  | .arr [.n 6, .s name] => some (.identifier name)
  | _ => none

/-- Encode an input descriptor field by field. -/
def encInput (i : Input) : Enc := .arr [encMode i.mode, encTy i.ty, encSpan i.span]

/-- Decode an input descriptor. -/
def decInput : Enc → Option Input
  | .arr [m, t, sp] => do
      let mode ← decMode m
      let ty ← decTy t
      let span ← decSpan sp
      some ⟨mode, ty, span⟩
  | _ => none

/-- Decode each element of an encoded list, failing when any element fails. -/
def decList (dec : Enc → Option α) : List Enc → Option (List α)
  | [] => some []
  | e :: rest => do
      let a ← dec e
      let as_ ← decList dec rest
      some (a :: as_)

/-- Encode a function symbol field by field. -/
def encFunctionSymbol (f : FunctionSymbol) : Enc :=
  .arr [.n f.id, .b f.is_async, encTy f.output_type, encVariant f.variant,
        encSpan f._span, .arr (f.input.map encInput)]

/-- Decode a function symbol. -/
def decFunctionSymbol : Enc → Option FunctionSymbol
  | .arr [.n id, .b async, t, v, sp, .arr inputs] => do
      let output_type ← decTy t
      let variant ← decVariant v
      let span ← decSpan sp
      let input ← decList decInput inputs
      some ⟨id, async, output_type, variant, span, input⟩
  | _ => none

/-- Encode finalize metadata field by field. -/
def encFinalizeData (d : FinalizeData) : Enc :=
  .arr [.arr (d.input.map encInput), encTy d.output_type]

/-- Decode finalize metadata. -/
def decFinalizeData : Enc → Option FinalizeData
  | .arr [.arr inputs, t] => do
      let input ← decList decInput inputs
      let output_type ← decTy t
      some ⟨input, output_type⟩
  | _ => none

/-- Encode a named function entry. -/
def encFnEntry (e : String × FunctionSymbol) : Enc :=
  .arr [.s e.1, encFunctionSymbol e.2]

/-- Decode a named function entry. -/
def decFnEntry : Enc → Option (String × FunctionSymbol)
  | .arr [.s name, f] => do
      let sym ← decFunctionSymbol f
      some (name, sym)
  | _ => none

/-- Encode a named finalize entry. -/
def encFinEntry (e : String × FinalizeData) : Enc :=
  .arr [.s e.1, encFinalizeData e.2]

/-- Decode a named finalize entry. -/
def decFinEntry : Enc → Option (String × FinalizeData)
  | .arr [.s name, d] => do
      let data ← decFinalizeData d
      some (name, data)
  | _ => none

/-- Encode a scope node: parent link, entries in order, finalize entries in
order, and the sealed flag. -/
def encScope (sc : Scope) : Enc :=
  .arr [encOptNat sc.parent, .arr (sc.functions.map encFnEntry),
        .arr (sc.finalizes.map encFinEntry), .b sc.sealed]

/-- Decode a scope node. -/
def decScope : Enc → Option Scope
  | .arr [p, .arr fns, .arr fins, .b sealed] => do
      let parent ← decOptNat p
      let functions ← decList decFnEntry fns
      let finalizes ← decList decFinEntry fins
      some ⟨parent, functions, finalizes, sealed⟩
  | _ => none

/-- Modelled from the spec: serialize the whole table — every scope in arena
order, each field by field. -/
def serialize (st : SymbolTable) : Enc := .arr (st.scopes.map encScope)

/-- Modelled from the spec: deserialize a table from the persistence
encoding. -/
def deserialize : Enc → Option SymbolTable
  | .arr scopes => do
      let scs ← decList decScope scopes
      some ⟨scs⟩
  | _ => none

/-- Modelled from the spec: the equality used for deduplication and test
comparison of function symbols; it compares `id`, `is_async`, `output_type`,
`variant` and `input`, and excludes the provenance `_span` field. -/
def FunctionSymbol.semEq (a b : FunctionSymbol) : Bool :=
  decide (a.id = b.id) && decide (a.is_async = b.is_async) &&
  decide (a.output_type = b.output_type) && decide (a.variant = b.variant) &&
  decide (a.input = b.input)

/-- Errors raised by the Remove command (leo PackageError cases reachable in
the modelled fragment).  Names are lists of characters so that the byte-level
suffix handling of remove.rs is explicit. -/
inductive RemoveError where
  | invalidFileNameDependency (name : List Char)
  | dependencyNotFound (name : List Char)
deriving DecidableEq

/-- The five characters of the `.aleo` suffix that remove.rs matches with
`name.ends_with(".aleo")`. -/
def aleoSuffix : List Char := ['.', 'a', 'l', 'e', 'o']

/-- The slice `&name[0..name.len() - 5]` of remove.rs: the name with its last
five characters removed. -/
def strip_aleo (name : List Char) : List Char := name.take (name.length - 5)

/-- `Package::is_program_name_valid` of the snarkVM package crate (external
dependency of remove.rs): a program name is valid when it is nonempty,
consists of lowercase ASCII letters, digits and underscores, and starts with
a letter. -/
def is_program_name_valid (name : List Char) : Bool :=
  !name.isEmpty &&
  name.all (fun c => c.isLower || c.isDigit || c == '_') &&
  (match name with
   | [] => false
   | c :: _ => c.isLower)

/-- The name-normalization match of `Remove::apply` (remove.rs lines 64-76):
keep `name` when it ends with `.aleo` and the stripped name is valid, append
`.aleo` when the bare name is valid, and otherwise fail with
`invalid_file_name_dependency`. -/
def normalize_name (name : List Char) : Except RemoveError (List Char) :=
  if aleoSuffix.isSuffixOf name && is_program_name_valid (strip_aleo name) then
    .ok name
  else if is_program_name_valid name then
    .ok (name ++ aleoSuffix)
  else
    .error (.invalidFileNameDependency name)

/-- A manifest dependency (leo_retriever `Dependency`), restricted to the
fields remove.rs reads: the program name, the optional local path and the
optional network. -/
structure Dependency where
  name : List Char
  path : Option String
  network : Option String
deriving DecidableEq

/-- The package manifest (leo_retriever `Manifest`) as read from and written
back to program.json by remove.rs. -/
structure Manifest where
  program : String
  version : String
  description : String
  license : String
  dependencies : Option (List Dependency)
deriving DecidableEq

/-- `Remove::apply` of remove.rs, after the manifest has been read: with
`--all` the dependency list is cleared; otherwise the name is normalized, the
dependencies whose name equals the normalized name are filtered out, a
missing match is `dependency_not_found`, and the four scalar manifest fields
are carried over unchanged into the rewritten manifest. -/
def remove_apply (manifest : Manifest) (name : List Char) (all : Bool) :
    Except RemoveError Manifest :=
  if all then
    .ok ⟨manifest.program, manifest.version, manifest.description,
         manifest.license, some []⟩
  else
    match normalize_name name with
    | .error e => .error e
    | .ok n =>
        let old := manifest.dependencies.getD []
        if old.any (fun d => d.name == n) then
          .ok ⟨manifest.program, manifest.version, manifest.description,
               manifest.license, some (old.filter (fun d => !(d.name == n)))⟩
        else
          .error (.dependencyNotFound n)

theorem lookup_cons_self {α : Type} (n : String) (v : α)
    (l : List (String × α)) : List.lookup n ((n, v) :: l) = some v := by
  simp [List.lookup]

theorem except_toOption_ok {ε α : Type} {e : Except ε α} {a : α}
    (h : e.toOption = some a) : e = .ok a := by
  cases e <;> simp_all [Except.toOption]

theorem seal_update_self {sc : Scope} (h : sc.sealed = true) :
    { sc with sealed := true } = sc := by
  cases sc
  simp_all

theorem getElem?_scopes_lt {st : SymbolTable} {s : Nat} {sc : Scope}
    (h : st.scopes[s]? = some sc) : s < st.scopes.length :=
  (List.getElem?_eq_some.mp h).1

theorem insert_ok_inv {st st' : SymbolTable} {s : Nat} {n : String}
    {sym : FunctionSymbol} (h : insert_function st s n sym = .ok st') :
    ∃ sc, st.scopes[s]? = some sc ∧ sc.sealed = false ∧
      sc.functions.lookup n = none ∧
      st' = ⟨st.scopes.set s { sc with functions := (n, sym) :: sc.functions }⟩ := by
  rw [insert_function] at h
  cases hg : st.scopes[s]? with
  | none => rw [hg] at h; cases h
  | some sc =>
      simp only [hg] at h
      by_cases hsld : sc.sealed = true
      · rw [if_pos hsld] at h; cases h
      · rw [if_neg hsld] at h
        by_cases hl : (sc.functions.lookup n).isSome = true
        · rw [if_pos hl] at h; cases h
        · rw [if_neg hl] at h
          cases h
          have hsld' : sc.sealed = false := by simpa using hsld
          have hl' : sc.functions.lookup n = none :=
            Option.not_isSome_iff_eq_none.mp hl
          exact ⟨sc, rfl, hsld', hl', rfl⟩

theorem attach_ok_inv {st st' : SymbolTable} {s : Nat} {n : String}
    {d : FinalizeData} (h : attach_finalize st s n d = .ok st') :
    ∃ sc sym, st.scopes[s]? = some sc ∧ sc.sealed = false ∧
      sc.functions.lookup n = some sym ∧ sym.is_async = true ∧
      st' = ⟨st.scopes.set s { sc with finalizes := (n, d) :: sc.finalizes }⟩ := by
  rw [attach_finalize] at h
  cases hg : st.scopes[s]? with
  | none => rw [hg] at h; cases h
  | some sc =>
      simp only [hg] at h
      by_cases hsld : sc.sealed = true
      · rw [if_pos hsld] at h; cases h
      · rw [if_neg hsld] at h
        cases hl : sc.functions.lookup n with
        | none => simp only [hl] at h; cases h
        | some sym =>
            simp only [hl] at h
            by_cases hasync : sym.is_async = true
            · rw [if_pos hasync] at h
              cases h
              have hsld' : sc.sealed = false := by simpa using hsld
              exact ⟨sc, sym, rfl, hsld', hl, hasync, rfl⟩
            · rw [if_neg hasync] at h; cases h

theorem create_ok_inv {st st2 : SymbolTable} {p : Option Nat} {id : Nat}
    (h : create_scope st p = .ok (st2, id)) :
    id = st.scopes.length ∧ st2 = ⟨st.scopes ++ [⟨p, [], [], false⟩]⟩ := by
  cases p with
  | none =>
      rw [create_scope] at h
      cases h
      exact ⟨rfl, rfl⟩
  | some q =>
      rw [create_scope] at h
      by_cases hq : q < st.scopes.length
      · rw [if_pos hq] at h
        cases h
        exact ⟨rfl, rfl⟩
      · rw [if_neg hq] at h
        cases h

theorem insert_sealed {st : SymbolTable} {s : Nat} {sc : Scope}
    (h : st.scopes[s]? = some sc) (hsld : sc.sealed = true)
    (n : String) (sym : FunctionSymbol) :
    insert_function st s n sym = .error .ScopeSealed := by
  simp only [insert_function, h]
  rw [if_pos hsld]

theorem attach_sealed {st : SymbolTable} {s : Nat} {sc : Scope}
    (h : st.scopes[s]? = some sc) (hsld : sc.sealed = true)
    (n : String) (d : FinalizeData) :
    attach_finalize st s n d = .error .ScopeSealed := by
  simp only [attach_finalize, h]
  rw [if_pos hsld]

theorem lookup_function_own {st : SymbolTable} {s : Nat} {sc : Scope}
    {n : String} {sym : FunctionSymbol} (h : st.scopes[s]? = some sc)
    (hl : sc.functions.lookup n = some sym) :
    lookup_function st s n = some sym := by
  have hlt : s < st.scopes.length := getElem?_scopes_lt h
  obtain ⟨k, hk⟩ : ∃ k, st.scopes.length = k + 1 :=
    ⟨st.scopes.length - 1, by omega⟩
  rw [lookup_function, hk]
  simp only [lookup_function_fuel, h, hl]

theorem lookup_finalize_own {st : SymbolTable} {s : Nat} {sc : Scope}
    {n : String} {sym : FunctionSymbol} (h : st.scopes[s]? = some sc)
    (hl : sc.functions.lookup n = some sym) :
    lookup_finalize st s n = sc.finalizes.lookup n := by
  have hlt : s < st.scopes.length := getElem?_scopes_lt h
  obtain ⟨k, hk⟩ : ∃ k, st.scopes.length = k + 1 :=
    ⟨st.scopes.length - 1, by omega⟩
  rw [lookup_finalize, hk]
  simp only [lookup_finalize_fuel, h, hl]

theorem valid_name_all {n : List Char}
    (h : is_program_name_valid n = true) :
    n.all (fun c => c.isLower || c.isDigit || c == '_') = true := by
  simp only [is_program_name_valid, Bool.and_eq_true] at h
  exact h.1.2

theorem valid_name_no_aleo_suffix {n : List Char}
    (h : is_program_name_valid n = true) :
    aleoSuffix.isSuffixOf n = false := by
  by_contra hsuf
  rw [Bool.not_eq_false] at hsuf
  have hsub : aleoSuffix <:+ n := List.isSuffixOf_iff_suffix.mp hsuf
  have hdot : '.' ∈ n := hsub.subset (by simp [aleoSuffix])
  have hall := valid_name_all h
  rw [List.all_eq_true] at hall
  have := hall '.' hdot
  simp at this

theorem strip_aleo_append (n : List Char) :
    strip_aleo (n ++ aleoSuffix) = n := by
  have hlen : (n ++ aleoSuffix).length = n.length + 5 := by
    simp [aleoSuffix]
  simp only [strip_aleo, hlen, Nat.add_sub_cancel]
  exact List.take_left n aleoSuffix

theorem normalize_name_valid {n : List Char}
    (h : is_program_name_valid n = true) :
    normalize_name n = .ok (n ++ aleoSuffix) := by
  rw [normalize_name, if_neg, if_pos h]
  rw [valid_name_no_aleo_suffix h]
  simp

theorem normalize_name_valid_suffixed {n : List Char}
    (h : is_program_name_valid n = true) :
    normalize_name (n ++ aleoSuffix) = .ok (n ++ aleoSuffix) := by
  have hsuf : aleoSuffix.isSuffixOf (n ++ aleoSuffix) = true :=
    List.isSuffixOf_iff_suffix.mpr (List.suffix_append n aleoSuffix)
  have hcond : (aleoSuffix.isSuffixOf (n ++ aleoSuffix) &&
      is_program_name_valid (strip_aleo (n ++ aleoSuffix))) = true := by
    rw [hsuf, strip_aleo_append, h]; rfl
  rw [normalize_name, if_pos hcond]

theorem lookup_fuel_eq_chain (st : SymbolTable) :
    ∀ (fuel s : Nat) (n : String),
      lookup_function_fuel st fuel s n =
        chain_lookup st (scope_chain_fuel st fuel s) n := by
  intro fuel
  induction fuel with
  | zero => intro s n; rfl
  | succ k ih =>
      intro s n
      rw [lookup_function_fuel, scope_chain_fuel]
      cases hg : st.scopes[s]? with
      | none => simp [chain_lookup]
      | some sc =>
          cases hp : sc.parent with
          | none =>
              cases hl : sc.functions.lookup n with
              | none => simp [chain_lookup, hg, hp, hl]
              | some v => simp [chain_lookup, hg, hp, hl]
          | some p =>
              cases hl : sc.functions.lookup n with
              | none => simp [chain_lookup, hg, hp, hl, ih]
              | some v => simp [chain_lookup, hg, hp, hl]

theorem lookup_function_eq_chain (st : SymbolTable) (s : Nat) (n : String) :
    lookup_function st s n = chain_lookup st (scope_chain st s) n :=
  lookup_fuel_eq_chain st st.scopes.length s n

theorem chain_fuel_valid (st : SymbolTable) :
    ∀ (fuel s i : Nat), i ∈ scope_chain_fuel st fuel s →
      ∃ sc, st.scopes[i]? = some sc := by
  intro fuel
  induction fuel with
  | zero => intro s i hi; cases hi
  | succ k ih =>
      intro s i hi
      rw [scope_chain_fuel] at hi
      cases hg : st.scopes[s]? with
      | none => simp only [hg] at hi; cases hi
      | some sc =>
          simp only [hg] at hi
          cases hp : sc.parent with
          | none =>
              simp only [hp] at hi
              have : i = s := by simpa using hi
              exact ⟨sc, this ▸ hg⟩
          | some p =>
              simp only [hp] at hi
              rcases List.mem_cons.mp hi with h | h
              · exact ⟨sc, h ▸ hg⟩
              · exact ih p i h

theorem chain_lookup_none_iff (st : SymbolTable) (n : String) :
    ∀ ids : List Nat, (∀ i ∈ ids, ∃ sc, st.scopes[i]? = some sc) →
      (chain_lookup st ids n = none ↔
        ∀ i ∈ ids, ∀ sc, st.scopes[i]? = some sc →
          sc.functions.lookup n = none) := by
  intro ids
  induction ids with
  | nil => intro _; simp [chain_lookup]
  | cons i rest ih =>
      intro hvalid
      obtain ⟨sc, hsc⟩ := hvalid i (List.mem_cons_self i rest)
      have hrest := ih (fun j hj => hvalid j (List.mem_cons_of_mem i hj))
      simp only [chain_lookup, hsc]
      cases hl : sc.functions.lookup n with
      | some v =>
          simp only [hl]
          constructor
          · intro h; cases h
          · intro hall
            have := hall i (List.mem_cons_self i rest) sc hsc
            rw [hl] at this
            simp at this
      | none =>
          simp only [hl]
          rw [hrest]
          constructor
          · intro hall j hj scj hscj
            rcases List.mem_cons.mp hj with h | h
            · subst h
              rw [hscj] at hsc
              cases hsc
              exact hl
            · exact hall j h scj hscj
          · intro hall j hj scj hscj
            exact hall j (List.mem_cons_of_mem i hj) scj hscj

theorem chain_lookup_append_none (st : SymbolTable) (n : String) :
    ∀ (pre ids : List Nat),
      (∀ j ∈ pre, ∃ scj, st.scopes[j]? = some scj ∧
        scj.functions.lookup n = none) →
      chain_lookup st (pre ++ ids) n = chain_lookup st ids n := by
  intro pre
  induction pre with
  | nil => intro ids _; rfl
  | cons j rest ih =>
      intro ids hnone
      obtain ⟨scj, hscj, hlj⟩ := hnone j (List.mem_cons_self j rest)
      rw [List.cons_append]
      simp only [chain_lookup, hscj, hlj]
      exact ih ids (fun j2 hj2 => hnone j2 (List.mem_cons_of_mem j hj2))

theorem chain_lookup_congr (st st2 : SymbolTable) (n : String) :
    ∀ ids : List Nat, (∀ i ∈ ids, st.scopes[i]? = st2.scopes[i]?) →
      chain_lookup st ids n = chain_lookup st2 ids n := by
  intro ids
  induction ids with
  | nil => intro _; rfl
  | cons i rest ih =>
      intro hagree
      have hi := hagree i (List.mem_cons_self i rest)
      rw [chain_lookup, chain_lookup, ← hi]
      cases hg : st.scopes[i]? with
      | none => simp
      | some sc =>
          simp only [hg]
          cases hl : sc.functions.lookup n with
          | some v => simp [hl]
          | none =>
              simp only [hl]
              exact ih (fun j hj => hagree j (List.mem_cons_of_mem i hj))

theorem seal_length (st : SymbolTable) (t : Nat) :
    (seal_scope st t).scopes.length = st.scopes.length := by
  rw [seal_scope]
  cases hgt : st.scopes[t]? with
  | none => rfl
  | some sct => exact List.length_set st.scopes t _

theorem seal_scopes_getElem (st : SymbolTable) (t i : Nat) :
    (seal_scope st t).scopes[i]? =
      (st.scopes[i]?).map
        (fun sc => if i = t then { sc with sealed := true } else sc) := by
  rw [seal_scope]
  cases hgt : st.scopes[t]? with
  | none =>
      by_cases hit : i = t
      · rw [hit, hgt]; rfl
      · cases hgi : st.scopes[i]? with
        | none => rfl
        | some sci => simp [hit]
  | some sct =>
      have hlt : t < st.scopes.length := getElem?_scopes_lt hgt
      by_cases hit : i = t
      · rw [hit, List.getElem?_set_eq_of_lt _ hlt, hgt]
        simp
      · show (st.scopes.set t _)[i]? = _
        rw [List.getElem?_set_ne (fun ht => hit ht.symm)]
        cases hgi : st.scopes[i]? with
        | none => rfl
        | some sci => simp [hit]

theorem seal_lookup_fuel (st : SymbolTable) (t : Nat) :
    ∀ (fuel s : Nat) (n : String),
      lookup_function_fuel (seal_scope st t) fuel s n =
        lookup_function_fuel st fuel s n := by
  intro fuel
  induction fuel with
  | zero => intro s n; rfl
  | succ k ih =>
      intro s n
      rw [lookup_function_fuel, lookup_function_fuel, seal_scopes_getElem]
      cases hg : st.scopes[s]? with
      | none => simp
      | some sc =>
          simp only [Option.map_some']
          by_cases hst : s = t
          · rw [if_pos hst]
            cases hl : sc.functions.lookup n with
            | some v => simp [hl]
            | none =>
                cases hp : sc.parent with
                | none => simp [hl, hp]
                | some p => simp [hl, hp, ih p n]
          · rw [if_neg hst]
            cases hl : sc.functions.lookup n with
            | some v => simp [hl]
            | none =>
                cases hp : sc.parent with
                | none => simp [hl, hp]
                | some p => simp [hl, hp, ih p n]

theorem seal_lookup (st : SymbolTable) (t s : Nat) (n : String) :
    lookup_function (seal_scope st t) s n = lookup_function st s n := by
  rw [lookup_function, lookup_function, seal_length]
  exact seal_lookup_fuel st t st.scopes.length s n

theorem runOp_preserves_sealed {st st1 : SymbolTable} {s : Nat} {sc : Scope}
    (hsc : st.scopes[s]? = some sc) (hsld : sc.sealed = true) {op : Op}
    (h : runOp st op = some st1) : st1.scopes[s]? = some sc := by
  cases op with
  | createScope p =>
      rw [runOp] at h
      cases hc : create_scope st p with
      | error e => rw [hc] at h; cases h
      | ok pr =>
          obtain ⟨st2, id⟩ := pr
          rw [hc] at h
          cases h
          obtain ⟨hid, hst2⟩ := create_ok_inv hc
          subst hst2
          have hlt : s < st.scopes.length := getElem?_scopes_lt hsc
          show (st.scopes ++ [⟨p, [], [], false⟩])[s]? = some sc
          rw [List.getElem?_append]
          simp [hlt, hsc]
  | insertFunction t n sym =>
      rw [runOp] at h
      obtain ⟨sct, hgt, hopen, hlnone, heq⟩ := insert_ok_inv (except_toOption_ok h)
      subst heq
      by_cases hts : t = s
      · subst hts
        rw [hgt] at hsc
        cases hsc
        rw [hopen] at hsld
        cases hsld
      · show (st.scopes.set t _)[s]? = some sc
        rw [List.getElem?_set_ne hts]
        exact hsc
  | attachFinalize t n d =>
      rw [runOp] at h
      obtain ⟨sct, sym, hgt, hopen, hlt, hasync, heq⟩ :=
        attach_ok_inv (except_toOption_ok h)
      subst heq
      by_cases hts : t = s
      · subst hts
        rw [hgt] at hsc
        cases hsc
        rw [hopen] at hsld
        cases hsld
      · show (st.scopes.set t _)[s]? = some sc
        rw [List.getElem?_set_ne hts]
        exact hsc
  | sealScope t =>
      rw [runOp] at h
      cases h
      rw [seal_scopes_getElem, hsc]
      by_cases hit : s = t
      · simp [hit, seal_update_self hsld]
      · simp [hit]

theorem runOps_preserves_sealed :
    ∀ (ops : List Op) (st st2 : SymbolTable) (s : Nat) (sc : Scope),
      st.scopes[s]? = some sc → sc.sealed = true →
      runOps st ops = some st2 → st2.scopes[s]? = some sc := by
  intro ops
  induction ops with
  | nil =>
      intro st st2 s sc hsc hsld h
      rw [runOps] at h
      cases h
      exact hsc
  | cons op rest ih =>
      intro st st2 s sc hsc hsld h
      rw [runOps] at h
      cases hop : runOp st op with
      | none => rw [hop] at h; cases h
      | some st1 =>
          rw [hop] at h
          exact ih st1 st2 s sc (runOp_preserves_sealed hsc hsld hop) hsld h

theorem runOp_length_mono {st st1 : SymbolTable} {op : Op}
    (h : runOp st op = some st1) :
    st.scopes.length ≤ st1.scopes.length := by
  cases op with
  | createScope p =>
      rw [runOp] at h
      cases hc : create_scope st p with
      | error e => rw [hc] at h; cases h
      | ok pr =>
          obtain ⟨st2, id⟩ := pr
          rw [hc] at h
          cases h
          obtain ⟨hid, hst2⟩ := create_ok_inv hc
          subst hst2
          simp
  | insertFunction t n sym =>
      rw [runOp] at h
      obtain ⟨sct, hgt, hopen, hlnone, heq⟩ := insert_ok_inv (except_toOption_ok h)
      subst heq
      simp
  | attachFinalize t n d =>
      rw [runOp] at h
      obtain ⟨sct, sym, hgt, hopen, hlt, hasync, heq⟩ :=
        attach_ok_inv (except_toOption_ok h)
      subst heq
      simp
  | sealScope t =>
      rw [runOp] at h
      cases h
      rw [seal_length]

theorem runOps_length_mono :
    ∀ (ops : List Op) (st st2 : SymbolTable), runOps st ops = some st2 →
      st.scopes.length ≤ st2.scopes.length := by
  intro ops
  induction ops with
  | nil =>
      intro st st2 h
      rw [runOps] at h
      cases h
      exact Nat.le_refl _
  | cons op rest ih =>
      intro st st2 h
      rw [runOps] at h
      cases hop : runOp st op with
      | none => rw [hop] at h; cases h
      | some st1 =>
          rw [hop] at h
          exact Nat.le_trans (runOp_length_mono hop) (ih st1 st2 h)

end Leo

namespace Leo

theorem decOptNat_enc : ∀ o : Option Nat, decOptNat (encOptNat o) = some o := by
  intro o
  cases o <;> rfl

theorem decVariant_enc : ∀ v : Variant, decVariant (encVariant v) = some v := by
  intro v
  cases v <;> rfl

theorem decMode_enc : ∀ m : Mode, decMode (encMode m) = some m := by
  intro m
  cases m <;> rfl

theorem decTy_enc : ∀ t : Ty, decTy (encTy t) = some t := by
  intro t
  cases t <;> rfl

theorem decSpan_enc : ∀ sp : Span, decSpan (encSpan sp) = some sp := by
  intro sp
  cases sp
  rfl

theorem decInput_enc : ∀ i : Input, decInput (encInput i) = some i := by
  intro i
  cases i
  simp [encInput, decInput, decMode_enc, decTy_enc, decSpan_enc]

theorem decList_enc {α : Type} (dec : Enc → Option α) (enc : α → Enc)
    (hde : ∀ x, dec (enc x) = some x) :
    ∀ l : List α, decList dec (l.map enc) = some l := by
  intro l
  induction l with
  | nil => rfl
  | cons x xs ih => simp [decList, hde, ih]

theorem decFunctionSymbol_enc :
    ∀ f : FunctionSymbol, decFunctionSymbol (encFunctionSymbol f) = some f := by
  intro f
  cases f
  simp [encFunctionSymbol, decFunctionSymbol, decTy_enc, decVariant_enc,
    decSpan_enc, decList_enc decInput encInput decInput_enc]

theorem decFinalizeData_enc :
    ∀ d : FinalizeData, decFinalizeData (encFinalizeData d) = some d := by
  intro d
  cases d
  simp [encFinalizeData, decFinalizeData, decTy_enc,
    decList_enc decInput encInput decInput_enc]

theorem decFnEntry_enc :
    ∀ e : String × FunctionSymbol, decFnEntry (encFnEntry e) = some e := by
  intro e
  cases e
  simp [encFnEntry, decFnEntry, decFunctionSymbol_enc]

theorem decFinEntry_enc :
    ∀ e : String × FinalizeData, decFinEntry (encFinEntry e) = some e := by
  intro e
  cases e
  simp [encFinEntry, decFinEntry, decFinalizeData_enc]

theorem decScope_enc : ∀ sc : Scope, decScope (encScope sc) = some sc := by
  intro sc
  cases sc
  simp [encScope, decScope, decOptNat_enc,
    decList_enc decFnEntry encFnEntry decFnEntry_enc,
    decList_enc decFinEntry encFinEntry decFinEntry_enc]

end Leo

/-- C1: for every scope identifier and AST function declaration,
`new_function_symbol` returns a record whose `id` equals the given scope
identifier and whose `is_async`, `output_type`, `variant`, `input` and span
equal, field for field, those of the declaration; construction is a total
function with no error conditions and copies the declaration by value. -/
theorem c1_new_function_symbol_copies_fields (id : Nat) (func : Leo.Function) :
    (Leo.new_function_symbol id func).id = id ∧
    (Leo.new_function_symbol id func).is_async = func.is_async ∧
    (Leo.new_function_symbol id func).output_type = func.output_type ∧
    (Leo.new_function_symbol id func).variant = func.variant ∧
    (Leo.new_function_symbol id func)._span = func.span ∧
    (Leo.new_function_symbol id func).input = func.input :=
  ⟨rfl, rfl, rfl, rfl, rfl, rfl⟩

/-- C9: the Remove command normalizes dependency names before matching: a
valid program name `n` and its suffixed form `n ++ ".aleo"` both normalize to
`n ++ ".aleo"`, so `remove_apply` treats the two inputs identically; a name
valid under neither form makes `remove_apply` fail with the
invalid-file-name-dependency error, returning before any manifest is
produced. -/
theorem c9_remove_normalizes_names (n : List Char)
    (h : Leo.is_program_name_valid n = true) :
    Leo.normalize_name n = .ok (n ++ Leo.aleoSuffix) ∧
    Leo.normalize_name (n ++ Leo.aleoSuffix) = .ok (n ++ Leo.aleoSuffix) ∧
    (∀ m : Leo.Manifest,
      Leo.remove_apply m n false = Leo.remove_apply m (n ++ Leo.aleoSuffix) false) ∧
    (∀ (bad : List Char) (m : Leo.Manifest),
      Leo.is_program_name_valid bad = false →
      (Leo.aleoSuffix.isSuffixOf bad &&
        Leo.is_program_name_valid (Leo.strip_aleo bad)) = false →
      Leo.remove_apply m bad false =
        .error (.invalidFileNameDependency bad)) := by
  refine ⟨Leo.normalize_name_valid h, Leo.normalize_name_valid_suffixed h, ?_, ?_⟩
  · intro m
    simp only [Leo.remove_apply, if_neg (Bool.false_ne_true),
      Leo.normalize_name_valid h, Leo.normalize_name_valid_suffixed h]
  · intro bad m hb1 hb2
    have hnorm : Leo.normalize_name bad =
        .error (.invalidFileNameDependency bad) := by
      rw [Leo.normalize_name, if_neg, if_neg]
      · rw [hb1]; exact Bool.false_ne_true
      · rw [hb2]; exact Bool.false_ne_true
    simp only [Leo.remove_apply, if_neg (Bool.false_ne_true), hnorm]

/-- C9 witness: the concrete valid name `cc` normalizes to `cc.aleo`, by the
theorem applied at `cc`. -/
theorem c9_remove_normalizes_names_witness :
    Leo.normalize_name ['c', 'c'] = .ok (['c', 'c'] ++ Leo.aleoSuffix) :=
  (c9_remove_normalizes_names ['c', 'c'] (by decide)).1

/-- C10: without `--all`, a normalized name matching no manifest dependency
makes Remove return the dependency-not-found error with no rewritten
manifest produced; with `--all`, the rewritten manifest has an empty
dependency list and carries over program, version, description and
license unchanged. -/
theorem c10_remove_not_found_and_all (m : Leo.Manifest) (n n' : List Char)
    (hnorm : Leo.normalize_name n = .ok n')
    (hnone : (m.dependencies.getD []).any (fun d => d.name == n') = false) :
    Leo.remove_apply m n false = .error (.dependencyNotFound n') ∧
    (∀ (m2 : Leo.Manifest) (n2 : List Char),
      Leo.remove_apply m2 n2 true =
        .ok ⟨m2.program, m2.version, m2.description, m2.license, some []⟩) := by
  constructor
  · simp only [Leo.remove_apply, if_neg (Bool.false_ne_true), hnorm, hnone,
      if_neg (Bool.false_ne_true)]
  · intro m2 n2
    simp [Leo.remove_apply]

/-- C10 witness: on a manifest with no dependency list, removing `cc` fails
with dependency-not-found for the normalized name `cc.aleo`, by the theorem
applied at that manifest. -/
theorem c10_remove_not_found_and_all_witness :
    Leo.remove_apply ⟨"p", "v", "d", "l", none⟩ ['c', 'c'] false =
      .error (.dependencyNotFound (['c', 'c'] ++ Leo.aleoSuffix)) :=
  (c10_remove_not_found_and_all ⟨"p", "v", "d", "l", none⟩ ['c', 'c']
    (['c', 'c'] ++ Leo.aleoSuffix) (Leo.normalize_name_valid (by decide))
    (by decide)).1

/-- C2: `lookup_function` resolves a name by checking the scope itself and
then each enclosing parent in order (it equals the reference walk over the
scope chain, and returns nothing exactly when no scope on the chain declares
the name); a successfully inserted symbol is immediately retrievable from its
own scope; a symbol declared at a scope on the chain is returned for a lookup
from any descendant when no nearer scope on the chain declares the name
(innermost-scope-wins shadowing); and a lookup depends only on the scopes of
its own chain, so an inner-scope declaration affects only lookups starting at
or below the inner scope. -/
theorem c2_lookup_resolution_and_shadowing :
    (∀ (st : Leo.SymbolTable) (s : Nat) (n : String),
      Leo.lookup_function st s n =
        Leo.chain_lookup st (Leo.scope_chain st s) n) ∧
    (∀ (st : Leo.SymbolTable) (s : Nat) (n : String),
      Leo.lookup_function st s n = none ↔
        ∀ i ∈ Leo.scope_chain st s, ∀ sc : Leo.Scope,
          st.scopes[i]? = some sc → sc.functions.lookup n = none) ∧
    (∀ (st st' : Leo.SymbolTable) (s : Nat) (n : String)
        (sym : Leo.FunctionSymbol),
      Leo.insert_function st s n sym = .ok st' →
      Leo.lookup_function st' s n = some sym) ∧
    (∀ (st : Leo.SymbolTable) (d i : Nat) (n : String) (sc : Leo.Scope)
        (sym : Leo.FunctionSymbol) (pre rest : List Nat),
      Leo.scope_chain st d = pre ++ i :: rest →
      st.scopes[i]? = some sc → sc.functions.lookup n = some sym →
      (∀ j ∈ pre, ∀ scj : Leo.Scope, st.scopes[j]? = some scj →
        scj.functions.lookup n = none) →
      Leo.lookup_function st d n = some sym) ∧
    (∀ (st st2 : Leo.SymbolTable) (s : Nat) (n : String),
      Leo.scope_chain st s = Leo.scope_chain st2 s →
      (∀ i ∈ Leo.scope_chain st s, st.scopes[i]? = st2.scopes[i]?) →
      Leo.lookup_function st s n = Leo.lookup_function st2 s n) := by
  refine ⟨fun st s n => Leo.lookup_function_eq_chain st s n, ?_, ?_, ?_, ?_⟩
  · intro st s n
    rw [Leo.lookup_function_eq_chain]
    exact Leo.chain_lookup_none_iff st n (Leo.scope_chain st s)
      (fun i hi => Leo.chain_fuel_valid st st.scopes.length s i hi)
  · intro st st' s n sym hins
    obtain ⟨sc, hsc, hopen, hlnone, heq⟩ := Leo.insert_ok_inv hins
    subst heq
    have hlt : s < st.scopes.length := Leo.getElem?_scopes_lt hsc
    have hg2 : (⟨st.scopes.set s
        { sc with functions := (n, sym) :: sc.functions }⟩ :
        Leo.SymbolTable).scopes[s]? =
        some { sc with functions := (n, sym) :: sc.functions } := by
      show (st.scopes.set s _)[s]? = _
      rw [List.getElem?_set_eq_of_lt _ hlt]
    exact Leo.lookup_function_own hg2 (Leo.lookup_cons_self n sym sc.functions)
  · intro st d i n sc sym pre rest hchain hsc hl hnone
    rw [Leo.lookup_function_eq_chain, hchain]
    rw [Leo.chain_lookup_append_none st n pre (i :: rest) ?_]
    · simp only [Leo.chain_lookup, hsc, hl]
    · intro j hj
      have hj' : j ∈ Leo.scope_chain st d := by
        rw [hchain]
        exact List.mem_append_left _ hj
      obtain ⟨scj, hscj⟩ := Leo.chain_fuel_valid st st.scopes.length d j hj'
      exact ⟨scj, hscj, hnone j hj scj hscj⟩
  · intro st st2 s n hchain hagree
    rw [Leo.lookup_function_eq_chain, Leo.lookup_function_eq_chain, ← hchain]
    exact Leo.chain_lookup_congr st st2 n (Leo.scope_chain st s) hagree

/-- C2 witness: inserting `f` into the root scope of a one-scope table makes
it retrievable by `lookup_function` from that scope, by the theorem's
insertion-retrievability conjunct at a concrete table. -/
theorem c2_lookup_resolution_and_shadowing_witness :
    Leo.lookup_function
      ⟨[⟨none, [("f", ⟨0, false, .unit, .standard, ⟨0, 0⟩, []⟩)], [], false⟩]⟩
      0 "f" = some ⟨0, false, .unit, .standard, ⟨0, 0⟩, []⟩ :=
  c2_lookup_resolution_and_shadowing.2.2.1 ⟨[⟨none, [], [], false⟩]⟩
    ⟨[⟨none, [("f", ⟨0, false, .unit, .standard, ⟨0, 0⟩, []⟩)], [], false⟩]⟩
    0 "f" ⟨0, false, .unit, .standard, ⟨0, 0⟩, []⟩ rfl

/-- C3: on an existing, still-open scope, `attach_finalize` succeeds exactly
when a Function Symbol with the given name exists directly in the scope and
its `is_async` is true; it fails with `UnknownFunction` when no such symbol
exists and with `NotAsync` when the symbol is synchronous; after a successful
call `lookup_finalize` returns exactly the attached metadata, and before any
metadata is attached under that key it returns nothing. -/
theorem c3_attach_finalize_contract (st : Leo.SymbolTable) (s : Nat)
    (n : String) (d : Leo.FinalizeData) (sc : Leo.Scope)
    (hsc : st.scopes[s]? = some sc) (hopen : sc.sealed = false) :
    ((∃ st2, Leo.attach_finalize st s n d = .ok st2) ↔
      ∃ sym, sc.functions.lookup n = some sym ∧ sym.is_async = true) ∧
    (sc.functions.lookup n = none →
      Leo.attach_finalize st s n d = .error .UnknownFunction) ∧
    (∀ sym : Leo.FunctionSymbol, sc.functions.lookup n = some sym →
      sym.is_async = false →
      Leo.attach_finalize st s n d = .error .NotAsync) ∧
    (∀ sym : Leo.FunctionSymbol, sc.functions.lookup n = some sym →
      sym.is_async = true →
      Leo.attach_finalize st s n d =
        .ok ⟨st.scopes.set s { sc with finalizes := (n, d) :: sc.finalizes }⟩ ∧
      Leo.lookup_finalize
        ⟨st.scopes.set s { sc with finalizes := (n, d) :: sc.finalizes }⟩ s n =
        some d) ∧
    (∀ sym : Leo.FunctionSymbol, sc.functions.lookup n = some sym →
      sc.finalizes.lookup n = none → Leo.lookup_finalize st s n = none) := by
  have hncond : ¬(sc.sealed = true) := by simp [hopen]
  have hlt : s < st.scopes.length := Leo.getElem?_scopes_lt hsc
  refine ⟨⟨?_, ?_⟩, ?_, ?_, ?_, ?_⟩
  · rintro ⟨st2, h2⟩
    obtain ⟨sc', sym, hg', hopen', hl', hasync', heq'⟩ := Leo.attach_ok_inv h2
    rw [hsc] at hg'
    cases hg'
    exact ⟨sym, hl', hasync'⟩
  · rintro ⟨sym, hl, hasync⟩
    refine ⟨(⟨st.scopes.set s
      { sc with finalizes := (n, d) :: sc.finalizes }⟩ : Leo.SymbolTable), ?_⟩
    simp only [Leo.attach_finalize, hsc]
    rw [if_neg hncond]
    simp only [hl]
    rw [if_pos hasync]
  · intro hl
    simp only [Leo.attach_finalize, hsc]
    rw [if_neg hncond]
    simp only [hl]
  · intro sym hl hasync
    simp only [Leo.attach_finalize, hsc]
    rw [if_neg hncond]
    simp only [hl]
    rw [if_neg]
    simp [hasync]
  · intro sym hl hasync
    constructor
    · simp only [Leo.attach_finalize, hsc]
      rw [if_neg hncond]
      simp only [hl]
      rw [if_pos hasync]
    · have hg2 : (⟨st.scopes.set s
          { sc with finalizes := (n, d) :: sc.finalizes }⟩ :
          Leo.SymbolTable).scopes[s]? =
          some { sc with finalizes := (n, d) :: sc.finalizes } := by
        show (st.scopes.set s _)[s]? = _
        rw [List.getElem?_set_eq_of_lt _ hlt]
      rw [Leo.lookup_finalize_own hg2 hl]
      exact Leo.lookup_cons_self n d sc.finalizes
  · intro sym hl hfin
    rw [Leo.lookup_finalize_own hsc hl]
    exact hfin

/-- C3 witness: on a one-scope table whose root holds the async transition
`bar`, attaching finalize metadata succeeds and `lookup_finalize` then returns
exactly that metadata, by the theorem's success conjunct at concrete values. -/
theorem c3_attach_finalize_contract_witness :
    Leo.attach_finalize
      ⟨[⟨none, [("bar", ⟨0, true, .unit, .transition, ⟨0, 0⟩, []⟩)], [], false⟩]⟩
      0 "bar" ⟨[], .unit⟩ =
      .ok ⟨[⟨none, [("bar", ⟨0, true, .unit, .transition, ⟨0, 0⟩, []⟩)],
        [("bar", ⟨[], .unit⟩)], false⟩]⟩ ∧
    Leo.lookup_finalize
      ⟨[⟨none, [("bar", ⟨0, true, .unit, .transition, ⟨0, 0⟩, []⟩)],
        [("bar", ⟨[], .unit⟩)], false⟩]⟩ 0 "bar" = some ⟨[], .unit⟩ :=
  (c3_attach_finalize_contract
    ⟨[⟨none, [("bar", ⟨0, true, .unit, .transition, ⟨0, 0⟩, []⟩)], [], false⟩]⟩
    0 "bar" ⟨[], .unit⟩
    ⟨none, [("bar", ⟨0, true, .unit, .transition, ⟨0, 0⟩, []⟩)], [], false⟩
    rfl rfl).2.2.2.1 ⟨0, true, .unit, .transition, ⟨0, 0⟩, []⟩ rfl rfl

/-- C4: inserting under a name that already exists in a scope fails with
`DuplicateDeclaration`; the table is unchanged by the failed call, so the
original symbol is still returned by `lookup_function`; and inserting the
same name into a freshly created child scope succeeds. -/
theorem c4_duplicate_declaration (st : Leo.SymbolTable) (s : Nat) (n : String)
    (sc : Leo.Scope) (sym : Leo.FunctionSymbol)
    (hsc : st.scopes[s]? = some sc) (hopen : sc.sealed = false)
    (hl : sc.functions.lookup n = some sym) :
    (∀ sym' : Leo.FunctionSymbol,
      Leo.insert_function st s n sym' = .error .DuplicateDeclaration) ∧
    Leo.lookup_function st s n = some sym ∧
    (∀ (st2 : Leo.SymbolTable) (c : Nat) (sym' : Leo.FunctionSymbol),
      Leo.create_scope st (some s) = .ok (st2, c) →
      ∃ st3, Leo.insert_function st2 c n sym' = .ok st3) := by
  have hncond : ¬(sc.sealed = true) := by simp [hopen]
  refine ⟨?_, Leo.lookup_function_own hsc hl, ?_⟩
  · intro sym'
    simp only [Leo.insert_function, hsc]
    rw [if_neg hncond, if_pos]
    rw [hl]
    rfl
  · intro st2 c sym' hcr
    obtain ⟨hc, hst2⟩ := Leo.create_ok_inv hcr
    subst hst2
    subst hc
    refine ⟨(⟨(st.scopes ++ [(⟨some s, [], [], false⟩ : Leo.Scope)]).set
      st.scopes.length (⟨some s, [(n, sym')], [], false⟩ : Leo.Scope)⟩ :
      Leo.SymbolTable), ?_⟩
    have hfresh : (st.scopes ++
        [⟨some s, [], [], false⟩])[st.scopes.length]? =
        some ⟨some s, [], [], false⟩ :=
      List.getElem?_concat_length st.scopes _
    simp only [Leo.insert_function, hfresh]
    rfl

/-- C4 witness: with `foo` already in the root scope, re-inserting `foo`
fails with `DuplicateDeclaration`, by the theorem at a concrete table. -/
theorem c4_duplicate_declaration_witness :
    Leo.insert_function
      ⟨[⟨none, [("foo", ⟨0, false, .unit, .standard, ⟨0, 0⟩, []⟩)], [], false⟩]⟩
      0 "foo" ⟨0, true, .boolean, .transition, ⟨3, 4⟩, []⟩ =
      .error .DuplicateDeclaration :=
  (c4_duplicate_declaration
    ⟨[⟨none, [("foo", ⟨0, false, .unit, .standard, ⟨0, 0⟩, []⟩)], [], false⟩]⟩
    0 "foo" ⟨none, [("foo", ⟨0, false, .unit, .standard, ⟨0, 0⟩, []⟩)], [], false⟩
    ⟨0, false, .unit, .standard, ⟨0, 0⟩, []⟩ rfl rfl rfl).1
    ⟨0, true, .boolean, .transition, ⟨3, 4⟩, []⟩

/-- C5: every successful `create_scope` returns the fresh identifier equal to
the current arena size (so it is beyond every identifier returned before),
the arena grows by exactly one and the new identifier denotes the newly
allocated scope; `create_scope` fails with `InvalidParentScope` when the
parent identifier denotes no existing scope; and across any later successful
operation sequence a subsequent `create_scope` returns a strictly greater
identifier, so identifiers are never reused. -/
theorem c5_create_scope_fresh_monotone_ids :
    (∀ (st st2 : Leo.SymbolTable) (p : Option Nat) (id : Nat),
      Leo.create_scope st p = .ok (st2, id) →
      id = st.scopes.length ∧ st2.scopes.length = st.scopes.length + 1 ∧
      st2.scopes[id]? = some ⟨p, [], [], false⟩) ∧
    (∀ (st : Leo.SymbolTable) (p : Nat), st.scopes.length ≤ p →
      Leo.create_scope st (some p) = .error .InvalidParentScope) ∧
    (∀ (st st2 st3 st4 : Leo.SymbolTable) (p p2 : Option Nat) (id id2 : Nat)
        (ops : List Leo.Op),
      Leo.create_scope st p = .ok (st2, id) →
      Leo.runOps st2 ops = some st3 →
      Leo.create_scope st3 p2 = .ok (st4, id2) → id < id2) := by
  refine ⟨?_, ?_, ?_⟩
  · intro st st2 p id h
    obtain ⟨hid, hst2⟩ := Leo.create_ok_inv h
    subst hst2
    subst hid
    exact ⟨rfl, by simp, List.getElem?_concat_length st.scopes _⟩
  · intro st p hp
    rw [Leo.create_scope, if_neg (by omega)]
  · intro st st2 st3 st4 p p2 id id2 ops h1 hrun h2
    obtain ⟨hid, hst2⟩ := Leo.create_ok_inv h1
    obtain ⟨hid2, _⟩ := Leo.create_ok_inv h2
    have hmono : st2.scopes.length ≤ st3.scopes.length :=
      Leo.runOps_length_mono ops st2 st3 hrun
    subst hst2
    have : st.scopes.length + 1 ≤ st3.scopes.length := by simpa using hmono
    omega

/-- C5 witness: creating the root of an empty table yields identifier 0, and
a later `create_scope` on the grown table yields the strictly greater
identifier 1, by the theorem's monotonicity conjunct at concrete tables. -/
theorem c5_create_scope_fresh_monotone_ids_witness :
    Leo.create_scope ⟨[]⟩ none = .ok (⟨[⟨none, [], [], false⟩]⟩, 0) ∧
    (0 : Nat) < 1 :=
  ⟨rfl, c5_create_scope_fresh_monotone_ids.2.2 ⟨[]⟩ ⟨[⟨none, [], [], false⟩]⟩
    ⟨[⟨none, [], [], false⟩]⟩ ⟨[⟨none, [], [], false⟩, ⟨some 0, [], [], false⟩]⟩
    none (some 0) 0 1 [] rfl rfl rfl⟩

/-- C6: once a scope is sealed, `insert_function` and `attach_finalize`
against it fail with `ScopeSealed` while `lookup_function` is unchanged; and
after any later successful operation sequence the scope record is still the
sealed original, insertions and attachments still fail with `ScopeSealed`,
and every name the scope declares is still returned by `lookup_function`. -/
theorem c6_sealed_scope_rejects_insertions (st : Leo.SymbolTable) (s : Nat)
    (sc : Leo.Scope) (hsc : st.scopes[s]? = some sc) :
    (∀ (n : String) (sym : Leo.FunctionSymbol),
      Leo.insert_function (Leo.seal_scope st s) s n sym =
        .error .ScopeSealed) ∧
    (∀ (n : String) (d : Leo.FinalizeData),
      Leo.attach_finalize (Leo.seal_scope st s) s n d =
        .error .ScopeSealed) ∧
    (∀ (x : Nat) (n : String),
      Leo.lookup_function (Leo.seal_scope st s) x n =
        Leo.lookup_function st x n) ∧
    (∀ (ops : List Leo.Op) (st2 : Leo.SymbolTable),
      Leo.runOps (Leo.seal_scope st s) ops = some st2 →
      st2.scopes[s]? = some { sc with sealed := true } ∧
      (∀ (n : String) (sym : Leo.FunctionSymbol),
        Leo.insert_function st2 s n sym = .error .ScopeSealed) ∧
      (∀ (n : String) (d : Leo.FinalizeData),
        Leo.attach_finalize st2 s n d = .error .ScopeSealed) ∧
      (∀ (n : String) (sym : Leo.FunctionSymbol),
        sc.functions.lookup n = some sym →
        Leo.lookup_function st2 s n = some sym)) := by
  have hsealed : (Leo.seal_scope st s).scopes[s]? =
      some { sc with sealed := true } := by
    rw [Leo.seal_scopes_getElem, hsc]
    simp
  refine ⟨?_, ?_, ?_, ?_⟩
  · intro n sym
    exact Leo.insert_sealed hsealed rfl n sym
  · intro n d
    exact Leo.attach_sealed hsealed rfl n d
  · intro x n
    exact Leo.seal_lookup st s x n
  · intro ops st2 hrun
    have hst2 : st2.scopes[s]? = some { sc with sealed := true } :=
      Leo.runOps_preserves_sealed ops (Leo.seal_scope st s) st2 s
        { sc with sealed := true } hsealed rfl hrun
    refine ⟨hst2, ?_, ?_, ?_⟩
    · intro n sym
      exact Leo.insert_sealed hst2 rfl n sym
    · intro n d
      exact Leo.attach_sealed hst2 rfl n d
    · intro n sym hl
      exact Leo.lookup_function_own hst2 hl

/-- C6 witness: seal the one-scope table holding `qux`; inserting `qux2`
then fails with `ScopeSealed` while `lookup_function` still returns `qux`,
by the theorem at a concrete table. -/
theorem c6_sealed_scope_rejects_insertions_witness :
    Leo.insert_function
      (Leo.seal_scope
        ⟨[⟨none, [("qux", ⟨0, false, .unit, .standard, ⟨0, 0⟩, []⟩)], [],
          false⟩]⟩ 0)
      0 "qux2" ⟨0, false, .unit, .standard, ⟨1, 1⟩, []⟩ =
      .error .ScopeSealed ∧
    Leo.lookup_function
      (Leo.seal_scope
        ⟨[⟨none, [("qux", ⟨0, false, .unit, .standard, ⟨0, 0⟩, []⟩)], [],
          false⟩]⟩ 0)
      0 "qux" = some ⟨0, false, .unit, .standard, ⟨0, 0⟩, []⟩ :=
  ⟨(c6_sealed_scope_rejects_insertions
      ⟨[⟨none, [("qux", ⟨0, false, .unit, .standard, ⟨0, 0⟩, []⟩)], [],
        false⟩]⟩ 0
      ⟨none, [("qux", ⟨0, false, .unit, .standard, ⟨0, 0⟩, []⟩)], [], false⟩
      rfl).1 "qux2" ⟨0, false, .unit, .standard, ⟨1, 1⟩, []⟩,
   ((c6_sealed_scope_rejects_insertions
      ⟨[⟨none, [("qux", ⟨0, false, .unit, .standard, ⟨0, 0⟩, []⟩)], [],
        false⟩]⟩ 0
      ⟨none, [("qux", ⟨0, false, .unit, .standard, ⟨0, 0⟩, []⟩)], [], false⟩
      rfl).2.2.2 [] _ rfl).2.2.2 "qux"
      ⟨0, false, .unit, .standard, ⟨0, 0⟩, []⟩ rfl⟩

/-- C7: serializing a symbol table (all scope records, their function and
finalize entries, parent links and sealed flags, field by field, in arena
order) and deserializing the result reproduces the identical table, so all
lookups on the reloaded table agree with the original. -/
theorem c7_serialize_deserialize_roundtrip (st : Leo.SymbolTable) :
    Leo.deserialize (Leo.serialize st) = some st := by
  cases st with
  | mk scopes =>
      simp [Leo.serialize, Leo.deserialize,
        Leo.decList_enc Leo.decScope Leo.encScope Leo.decScope_enc]

/-- C8: the equality used for deduplication and test comparison of function
symbols judges two symbols equal whenever they agree on `id`, `is_async`,
`output_type`, `variant` and `input`, even when their provenance spans
differ — the span field is excluded from the comparison. -/
theorem c8_equality_excludes_span (a b : Leo.FunctionSymbol)
    (hspan : a._span ≠ b._span) (h1 : a.id = b.id)
    (h2 : a.is_async = b.is_async) (h3 : a.output_type = b.output_type)
    (h4 : a.variant = b.variant) (h5 : a.input = b.input) :
    Leo.FunctionSymbol.semEq a b = true := by
  simp [Leo.FunctionSymbol.semEq, h1, h2, h3, h4, h5]

/-- C8 witness: two concrete symbols identical except for their spans are
judged equal by the deduplication equality, by the theorem at those
symbols. -/
theorem c8_equality_excludes_span_witness :
    Leo.FunctionSymbol.semEq ⟨0, false, .unit, .standard, ⟨0, 0⟩, []⟩
      ⟨0, false, .unit, .standard, ⟨1, 2⟩, []⟩ = true :=
  c8_equality_excludes_span ⟨0, false, .unit, .standard, ⟨0, 0⟩, []⟩
    ⟨0, false, .unit, .standard, ⟨1, 2⟩, []⟩ (by decide) rfl rfl rfl rfl rfl
